import Mathlib

/-
Shallow embedding of the vocabulary builder and codec of
src/data_utils/vocab.py (class Vocab).

Modelling conventions:
* A tokenized caption is a `List String`; an annotation file is a
  `List (List String)` (the captions of its "annotations" list, already
  tokenized by the external `preprocess_caption` collaborator); the
  `json_dirs` argument is a `List (List (List String))`.
* Python dicts are association lists: `collections.Counter` objects and
  `stoi` are `List (String × Nat)` (insertion order preserved, keys
  unique), `self.itos` is the dict built at line 85 of vocab.py, i.e. a
  `List (Nat × String)`.
* Python exceptions are modelled with `Except String` / `Option`:
  `Except.error` and `none` mark a raised exception.
* Only the branch without a pretrained language model is embedded; the
  pretrained branch delegates entirely to the external AutoTokenizer
  collaborator.
-/

/-- Python character comparison: code points, which for `Char` is `toNat`. -/
def charLtNat (a b : Char) : Bool := decide (a.toNat < b.toNat)

/-- Python string comparison `s < t`: lexicographic on code points. -/
def ltChars : List Char → List Char → Bool
  | [], [] => false
  | [], _ :: _ => true
  | _ :: _, [] => false
  | a :: as, b :: bs =>
    if charLtNat a b then true
    else if charLtNat b a then false
    else ltChars as bs

/-- Python `s < t` on strings. -/
def strLtB (s t : String) : Bool := ltChars s.data t.data

/-- Python `s <= t` on strings (total order: not `t < s`). -/
def strLeB (s t : String) : Bool := ! strLtB t s

/-- Stable insertion: places `x` before the first element `y` with `le x y`.
Together with `pySorted` this models Python's stable `sorted`/`list.sort`:
equal-key elements keep their original relative order. -/
def insertStable (le : α → α → Bool) (x : α) : List α → List α
  | [] => [x]
  | y :: ys => if le x y then x :: y :: ys else y :: insertStable le x ys

/-- Stable sort modelling Python `sorted(l, key=...)` for a total preorder
`le` (an insertion sort; any stable sort computes the same list). -/
def pySorted (le : α → α → Bool) : List α → List α
  | [] => []
  | x :: xs => insertStable le x (pySorted le xs)

/-- Lookup in a Counter: `counter[t]` (0 for a missing key). -/
def countOf (d : List (String × Nat)) (t : String) : Nat :=
  match d.find? (fun p => decide (p.1 = t)) with
  | some p => p.2
  | none => 0

/-- Membership test for a string-keyed dict: Python `t in d`. -/
def hasKeyS (d : List (String × Nat)) (t : String) : Bool :=
  d.any (fun p => decide (p.1 = t))

/-- One `Counter.update` step for a single token: increment in place if the
key exists, else append it with count 1 (Counter preserves insertion order). -/
def bump : List (String × Nat) → String → List (String × Nat)
  | [], t => [(t, 1)]
  | (k, n) :: rest, t =>
    if k = t then (k, n + 1) :: rest else (k, n) :: bump rest t

/-- Python `del counter[tok]` on a Counter: removes the key if present
(Counter.__delitem__ does not raise for a missing key). -/
def delKey (d : List (String × Nat)) (t : String) : List (String × Nat) :=
  d.filter (fun p => ! decide (p.1 = t))

/-- Comparator of vocab.py line 53: `key=lambda tup: tup[0]` (string order). -/
def byWord (a b : String × Nat) : Bool := strLeB a.1 b.1

/-- Comparator of vocab.py line 54: `key=lambda tup: tup[1], reverse=True`
(descending counts; a stable sort keeps ties in their incoming order). -/
def byFreqDesc (a b : String × Nat) : Bool := decide (b.2 ≤ a.2)

/-- Lines 53-54 of vocab.py: sort `counter.items()` alphabetically, then
stably by frequency, descending. -/
def words_and_frequencies (counter : List (String × Nat)) : List (String × Nat) :=
  pySorted byFreqDesc (pySorted byWord counter)

/-- Python `enumerate` starting at `n`, as the key-value pairs of the dict
comprehension at line 85 of vocab.py. -/
def enumFromN : Nat → List String → List (Nat × String)
  | _, [] => []
  | n, x :: xs => (n, x) :: enumFromN (n + 1) xs

/-- Python dict assignment `d[k] = v`: overwrite in place if `k` is already
a key (its position is kept), else append. -/
def dictUpdate (d : List (String × Nat)) (k : String) (v : Nat) : List (String × Nat) :=
  if hasKeyS d k then d.map (fun p => if p.1 = k then (k, v) else p)
  else d ++ [(k, v)]

/-- The dict comprehension of line 89 of vocab.py:
`{tok: i for i, tok in self.itos.items()}` (later indices win). -/
def mkStoi (l : List String) : List (String × Nat) :=
  (enumFromN 0 l).foldl (fun d p => dictUpdate d p.2 p.1) []

/-- Lookup `stoi[t]` in the string-keyed dict (None marks a KeyError). -/
def stoiFind (d : List (String × Nat)) (t : String) : Option Nat :=
  (d.find? (fun p => decide (p.1 = t))).map (fun p => p.2)

/-- Lookup `itos[i]` in the int-keyed dict (None marks a KeyError). -/
def itosFind (d : List (Nat × String)) (i : Nat) : Option String :=
  (d.find? (fun p => decide (p.1 = i))).map (fun p => p.2)

/-- Positional list lookup (proof-side helper relating the two dicts). -/
def nth : List α → Nat → Option α
  | [], _ => none
  | x :: _, 0 => some x
  | _ :: xs, n + 1 => nth xs n

/-- Vocab.make_vocab (vocab.py lines 102-112): one pass over every
annotation of every file, accumulating the token Counter `freqs` and
`max_caption_length` (longest tokenized caption plus 2, starting at 0). -/
def make_vocab (json_dirs : List (List (List String))) : List (String × Nat) × Nat :=
  json_dirs.foldl
    (fun st file =>
      file.foldl
        (fun st2 cap =>
          (cap.foldl bump st2.1,
           if cap.length + 2 > st2.2 then cap.length + 2 else st2.2))
        st)
    ([], 0)

/-- The token-collection loop of vocab.py lines 81-84: starting from the
specials, append each word of `words_and_frequencies` until the frequency
drops below `min_freq` or the list length reaches `max_size`. -/
def build_itos (min_freq : Nat) (max_size : Option Nat) :
    List String → List (String × Nat) → List String
  | itos, [] => itos
  | itos, (word, freq) :: rest =>
    if freq < min_freq ∨ max_size = some itos.length then itos
    else build_itos min_freq max_size (itos ++ [word]) rest

/-- State of a constructed Vocab object (the fields set by `__init__` in
the branch without a pretrained language model). `itos` is the dict of
line 85, `stoi` the dict of lines 87-89. -/
structure Vocab where
  freqs : List (String × Nat)
  itos : List (Nat × String)
  stoi : List (String × Nat)
  padding_token : String
  bos_token : String
  eos_token : String
  unk_token : String
  padding_idx : Nat
  bos_idx : Nat
  eos_idx : Nat
  unk_idx : Nat
  specials : List String
  max_caption_length : Nat
deriving DecidableEq, Inhabited

/-- Vocab.__init__ (vocab.py lines 25-96), without a pretrained language
model and without vectors. Line 45 evaluates `max_size + len(self.itos)`
before `self.itos` exists, so any non-None `max_size` raises
AttributeError (modelled as `Except.error`). Otherwise: count tokens,
sort the counter snapshot (lines 53-54), delete the special tokens from
the counter copy only (lines 78-79 - this does not touch the snapshot nor
`self.freqs`), build `itos` and its reverse dict `stoi`, and resolve the
four special indices (a failed lookup would be a KeyError). -/
def Vocab.init (json_dirs : List (List (List String))) (max_size : Option Nat)
    (min_freq : Nat) (bos_token eos_token padding_token unk_token : String) :
    Except String Vocab :=
  match max_size with
  | some _ => .error "AttributeError: Vocab object has no attribute itos"
  | none =>
    let fm := make_vocab json_dirs
    let freqs := fm.1
    let counter := freqs
    let mf := max min_freq 1
    let wf := words_and_frequencies counter
    let specials := [padding_token, bos_token, eos_token, unk_token]
    let _removed := specials.foldl delKey counter
    let itosList := build_itos mf none specials wf
    let itos := enumFromN 0 itosList
    let stoi := mkStoi itosList
    match stoiFind stoi padding_token, stoiFind stoi bos_token,
        stoiFind stoi eos_token, stoiFind stoi unk_token with
    | some pi, some bi, some ei, some ui =>
      .ok ⟨freqs, itos, stoi, padding_token, bos_token, eos_token, unk_token,
           pi, bi, ei, ui, specials, fm.2⟩
    | _, _, _, _ => .error "KeyError"

/-- One indexed tensor write `vec[i] = x`; out of range raises IndexError
(torch rejects out-of-bounds scalar writes), modelled as `none`. -/
def write_at (vec : List Nat) (i : Nat) (x : Nat) : Option (List Nat) :=
  if i < vec.length then some (vec.set i x) else none

/-- The write loop of Vocab.encode_caption (vocab.py lines 117-118). -/
def encode_loop (stoi : List (String × Nat)) (unk_idx : Nat) :
    List Nat → Nat → List String → Option (List Nat)
  | vec, _, [] => some vec
  | vec, i, t :: rest =>
    match write_at vec i (match stoiFind stoi t with | some j => j | none => unk_idx) with
    | some vec2 => encode_loop stoi unk_idx vec2 (i + 1) rest
    | none => none

/-- Vocab.encode_caption (vocab.py lines 114-119): a vector of
`max_caption_length` copies of the padding index, overwritten in order
with bos, the token indices (unk for out-of-vocabulary tokens) and eos.
`none` models the IndexError raised when the write runs past the end. -/
def Vocab.encode_caption (v : Vocab) (caption : List String) : Option (List Nat) :=
  encode_loop v.stoi v.unk_idx (List.replicate v.max_caption_length v.padding_idx) 0
    ([v.bos_token] ++ caption ++ [v.eos_token])

/-- Python `str.isspace`, the separator set of `str.split()` with no
argument and of `str.strip()`: U+0009-U+000D, U+001C-U+001F, the space,
U+0085 (NEL), U+00A0 (NBSP), U+1680 (Ogham space mark), U+2000-U+200A,
U+2028 (line separator), U+2029 (paragraph separator), U+202F, U+205F and
U+3000 (the characters CPython's Py_UNICODE_ISSPACE accepts). -/
def pyIsSpace (c : Char) : Bool :=
  (decide (9 ≤ c.toNat) && decide (c.toNat ≤ 13)) ||
  (decide (28 ≤ c.toNat) && decide (c.toNat ≤ 31)) ||
  c.toNat == 32 || c.toNat == 133 || c.toNat == 160 || c.toNat == 5760 ||
  (decide (8192 ≤ c.toNat) && decide (c.toNat ≤ 8202)) ||
  c.toNat == 8232 || c.toNat == 8233 ||
  c.toNat == 8239 || c.toNat == 8287 || c.toNat == 12288

/-- Worker for Python `str.split()` with no separator: split on runs of
whitespace, discarding empty pieces; `cur` is the current chunk, reversed. -/
def splitWsGo : List Char → List Char → List (List Char)
  | [], cur => if cur.isEmpty then [] else [cur.reverse]
  | c :: cs, cur =>
    if pyIsSpace c then
      if cur.isEmpty then splitWsGo cs [] else cur.reverse :: splitWsGo cs []
    else splitWsGo cs (c :: cur)

/-- Python `s.strip().split()` as used at line 137 of vocab.py. Splitting
on whitespace runs already drops leading and trailing whitespace, so the
strip is absorbed. -/
def pySplitWs (s : List Char) : List String :=
  (splitWsGo s []).map (fun cs => String.mk cs)

/-- Python `" ".join(words)` (vocab.py line 133), at the character level. -/
def pyJoinSpace : List String → List Char
  | [] => []
  | [w] => w.data
  | w :: rest => w.data ++ ' ' :: pyJoinSpace rest

/-- The inner loop of Vocab.decode_caption (vocab.py lines 127-132): walk
one row, append every token that is not special, and stop after the
position holding the eos index. An index missing from `itos` raises
KeyError. `words` is the accumulator. -/
def Vocab.decode_row (v : Vocab) : List Nat → List String → Except String (List String)
  | [], words => .ok words
  | idx :: rest, words =>
    match itosFind v.itos idx with
    | none => .error "KeyError"
    | some tok =>
      let words2 := if tok ∈ v.specials then words else words ++ [tok]
      if idx = v.eos_idx then .ok words2 else v.decode_row rest words2

/-- Vocab.decode_caption (vocab.py lines 121-139): decode each row of the
batch; join with spaces when `join_words` (Sum.inl), else strip and
re-split (Sum.inr). -/
def Vocab.decode_caption (v : Vocab) (caption_vecs : List (List Nat)) (join_words : Bool) :
    Except String (List (String ⊕ List String)) :=
  match caption_vecs with
  | [] => .ok []
  | row :: rest =>
    match v.decode_row row [], v.decode_caption rest join_words with
    | .ok words, .ok captions =>
      .ok ((if join_words then Sum.inl (String.mk (pyJoinSpace words))
            else Sum.inr (pySplitWs (pyJoinSpace words))) :: captions)
    | .error e, _ => .error e
    | _, .error e => .error e

/-- Vocab.extend (vocab.py lines 155-160). `self.itos` is the dict built
at line 85, so iterating `v.itos` yields its integer keys; no integer is
a key of the string-keyed `self.stoi`, hence every iteration reaches
`self.itos.append(w)`, which raises AttributeError because a dict has no
`append`. Only an empty `v.itos` avoids the exception. -/
def Vocab.extend (self other : Vocab) (sort : Bool) : Except String Vocab :=
  let ks := other.itos.map (fun p => p.1)
  let words := if sort then pySorted (fun a b => decide (a ≤ b)) ks else ks
  match words with
  | [] => .ok self
  | _ :: _ => .error "AttributeError: dict object has no attribute append"

/-- Unwrap a constructed vocabulary (used only to name concrete instances). -/
def getOk (e : Except String Vocab) : Vocab :=
  match e with
  | .ok v => v
  | .error _ => default

/-- Last index of `t` in `l`, the value `mkStoi` stores (proof-side). -/
def lastIdxOf : List String → String → Option Nat
  | [], _ => none
  | x :: xs, t =>
    match lastIdxOf xs t with
    | some i => some (i + 1)
    | none => if x = t then some 0 else none

/-- Ordering on counter entries: strictly larger count first, ties in
ascending (code-point alphabetical) string order. -/
def pairOrd (a b : String × Nat) : Prop :=
  b.2 < a.2 ∨ (a.2 = b.2 ∧ strLtB a.1 b.1 = true)

/-- Ordering on tokens relative to a frequency table: strictly larger
count first, ties in ascending (code-point alphabetical) string order. -/
def tokenOrd (freqs : List (String × Nat)) (s t : String) : Prop :=
  countOf freqs t < countOf freqs s ∨
    (countOf freqs s = countOf freqs t ∧ strLtB s t = true)

/-- Annotation input for the concrete witnesses: one file, two captions
(the concrete scenario of the specification). -/
def capsA : List (List (List String)) := [[["a", "dog", "runs"], ["a", "cat", "runs"]]]

/-- Witness vocabulary built from `capsA`. -/
def vA : Vocab := getOk (Vocab.init capsA none 1 "<bos>" "<eos>" "<pad>" "<unk>")

/-- Vocabulary whose annotations contain the padding token itself. -/
def vPad : Vocab := getOk (Vocab.init [[["<pad>"]]] none 1 "<bos>" "<eos>" "<pad>" "<unk>")

/-- Vocabulary with max_caption_length 3, for the encode counterexamples. -/
def vC2 : Vocab := getOk (Vocab.init [[["x"]]] none 1 "<bos>" "<eos>" "<pad>" "<unk>")

/-- A second vocabulary with max_caption_length 3. -/
def vC4 : Vocab := getOk (Vocab.init [[["hello"]]] none 1 "<bos>" "<eos>" "<pad>" "<unk>")

/-- Vocabulary containing a token with an inner space. -/
def vSp : Vocab := getOk (Vocab.init [[["a b"]]] none 1 "<bos>" "<eos>" "<pad>" "<unk>")

/-- Vocabulary built with min_freq 2 over a token of frequency 1. -/
def vB : Vocab := getOk (Vocab.init [[["solo"], ["duo", "duo"]]] none 2 "<bos>" "<eos>" "<pad>" "<unk>")

/-- Vocabulary whose annotations contain the eos token string. -/
def vC9 : Vocab := getOk (Vocab.init [[["<eos>", "w"]]] none 1 "<bos>" "<eos>" "<pad>" "<unk>")

theorem sanity_vA : Vocab.init capsA none 1 "<bos>" "<eos>" "<pad>" "<unk>" = .ok vA := rfl

theorem sanity_vA_itos :
    vA.itos = [(0, "<pad>"), (1, "<bos>"), (2, "<eos>"), (3, "<unk>"),
               (4, "a"), (5, "runs"), (6, "cat"), (7, "dog")] := rfl

theorem sanity_vA_len : vA.max_caption_length = 5 := rfl

theorem sanity_vPad : stoiFind vPad.stoi "<pad>" = some 4 := rfl

/-! Facts about the embedded Python string order. -/

theorem ltChars_asymm : ∀ x y : List Char, ltChars x y = true → ltChars y x = false
  | [], [] => by simp [ltChars]
  | [], _ :: _ => by simp [ltChars]
  | _ :: _, [] => by simp [ltChars]
  | a :: as, b :: bs => by
    simp only [ltChars, charLtNat]
    intro h
    have hrec := ltChars_asymm as bs
    split_ifs at h ⊢ with h1 h2 h3 h4 <;>
      simp_all [decide_eq_true_eq] <;> omega

theorem ltChars_connex : ∀ x y : List Char,
    ltChars x y = false → ltChars y x = false → x = y
  | [], [] => by simp
  | [], _ :: _ => by simp [ltChars]
  | _ :: _, [] => by simp [ltChars]
  | a :: as, b :: bs => by
    simp only [ltChars, charLtNat]
    intro h1 h2
    have hab : a.toNat = b.toNat := by
      split_ifs at h1 h2 <;> simp_all [decide_eq_true_eq] <;> omega
    have ha : a = b := Char.ext (UInt32.ext hab)
    subst ha
    have htails : as = bs := by
      apply ltChars_connex as bs <;>
        · split_ifs at h1 h2 <;> simp_all [decide_eq_true_eq]
    rw [htails]

theorem ltChars_trans_neg : ∀ c a b : List Char,
    ltChars c a = true → ltChars b a = false → ltChars c b = true
  | [], a, b => by
    intro h1 h2
    match a, b with
    | [], _ => simp [ltChars] at h1
    | _ :: _, [] => simp [ltChars] at h2
    | _ :: _, _ :: _ => simp [ltChars]
  | cc :: cs, a, b => by
    intro h1 h2
    match a, b with
    | [], _ => simp [ltChars] at h1
    | _ :: _, [] => simp [ltChars] at h2
    | aa :: as, bb :: bs =>
      have hrec := ltChars_trans_neg cs as bs
      simp only [ltChars, charLtNat] at h1 h2 ⊢
      split_ifs at h1 h2 ⊢ <;> simp_all [decide_eq_true_eq] <;> omega

theorem strLeB_total (a b : String) : strLeB a b = true ∨ strLeB b a = true := by
  by_cases h : ltChars b.data a.data = true
  · right
    have := ltChars_asymm _ _ h
    simp [strLeB, strLtB, this]
  · left
    simp only [Bool.not_eq_true] at h
    simp [strLeB, strLtB, h]

theorem strLeB_trans (a b c : String) (h1 : strLeB a b = true) (h2 : strLeB b c = true) :
    strLeB a c = true := by
  simp only [strLeB, strLtB, Bool.not_eq_true'] at h1 h2 ⊢
  by_contra hca
  simp only [Bool.not_eq_false] at hca
  have := ltChars_trans_neg c.data a.data b.data hca h1
  simp [this] at h2

theorem strLeB_strict (a b : String) (h1 : strLeB a b = true) (h2 : a ≠ b) :
    strLtB a b = true := by
  simp only [strLeB, strLtB, Bool.not_eq_true'] at h1 ⊢
  by_contra hab
  simp only [Bool.not_eq_true] at hab
  have hdata : a.data = b.data := ltChars_connex a.data b.data hab h1
  apply h2
  cases a
  cases b
  simp_all

/-! Facts about the stable sort. -/

theorem insertStable_perm (le : α → α → Bool) (x : α) :
    ∀ l : List α, List.Perm (insertStable le x l) (x :: l)
  | [] => List.Perm.refl _
  | y :: ys => by
    simp only [insertStable]
    split
    · exact List.Perm.refl _
    · exact ((insertStable_perm le x ys).cons y).trans (List.Perm.swap x y ys)

theorem pySorted_perm (le : α → α → Bool) :
    ∀ l : List α, List.Perm (pySorted le l) l
  | [] => List.Perm.refl _
  | x :: xs => by
    simp only [pySorted]
    exact (insertStable_perm le x (pySorted le xs)).trans ((pySorted_perm le xs).cons x)

theorem mem_insertStable (le : α → α → Bool) (x a : α) (l : List α) :
    a ∈ insertStable le x l ↔ a = x ∨ a ∈ l := by
  rw [(insertStable_perm le x l).mem_iff]
  simp

theorem mem_pySorted (le : α → α → Bool) (a : α) (l : List α) :
    a ∈ pySorted le l ↔ a ∈ l :=
  (pySorted_perm le l).mem_iff

theorem insertStable_pairwise (le : α → α → Bool)
    (htot : ∀ a b, le a b = true ∨ le b a = true)
    (htrans : ∀ a b c, le a b = true → le b c = true → le a c = true)
    (x : α) : ∀ l : List α, l.Pairwise (fun a b => le a b = true) →
      (insertStable le x l).Pairwise (fun a b => le a b = true)
  | [], _ => by simp [insertStable]
  | y :: ys, hl => by
    rcases List.pairwise_cons.mp hl with ⟨hy, hys⟩
    by_cases hxy : le x y = true
    · simp only [insertStable, hxy, if_true]
      refine List.pairwise_cons.mpr ⟨?_, hl⟩
      intro z hz
      rcases List.mem_cons.mp hz with rfl | hz2
      · exact hxy
      · exact htrans x y z hxy (hy z hz2)
    · simp only [Bool.not_eq_true] at hxy
      simp only [insertStable, hxy, Bool.false_eq_true, if_false]
      refine List.pairwise_cons.mpr ⟨?_, insertStable_pairwise le htot htrans x ys hys⟩
      intro z hz
      rcases (mem_insertStable le x z ys).mp hz with rfl | hz2
      · rcases htot y z with h | h
        · exact h
        · simp_all
      · exact hy z hz2

theorem pySorted_pairwise (le : α → α → Bool)
    (htot : ∀ a b, le a b = true ∨ le b a = true)
    (htrans : ∀ a b c, le a b = true → le b c = true → le a c = true) :
    ∀ l : List α, (pySorted le l).Pairwise (fun a b => le a b = true)
  | [] => by simp [pySorted]
  | x :: xs => by
    simp only [pySorted]
    exact insertStable_pairwise le htot htrans x (pySorted le xs)
      (pySorted_pairwise le htot htrans xs)

/-! The frequency sort of an alphabetically sorted list of distinct keys is
ordered by `pairOrd` (descending counts, alphabetical ties). -/

theorem insertStable_pairwise_pairOrd (x : String × Nat) :
    ∀ l : List (String × Nat), l.Pairwise pairOrd →
      (∀ y ∈ l, strLtB x.1 y.1 = true) →
      (insertStable byFreqDesc x l).Pairwise pairOrd
  | [], _, _ => by simp [insertStable, List.pairwise_cons]
  | y :: ys, hl, hx => by
    rcases List.pairwise_cons.mp hl with ⟨hy, hys⟩
    by_cases hxy : byFreqDesc x y = true
    · have hyx : y.2 ≤ x.2 := by
        simpa [byFreqDesc, decide_eq_true_eq] using hxy
      simp only [insertStable, hxy, if_true]
      refine List.pairwise_cons.mpr ⟨?_, hl⟩
      intro z hz
      rcases List.mem_cons.mp hz with rfl | hz2
      · rcases Nat.lt_or_ge z.2 x.2 with h | h
        · exact Or.inl h
        · exact Or.inr ⟨Nat.le_antisymm h hyx, hx z (List.mem_cons_self z ys)⟩
      · rcases hy z hz2 with h | ⟨heq, _⟩
        · exact Or.inl (Nat.lt_of_lt_of_le h hyx)
        · rcases Nat.lt_or_ge z.2 x.2 with h2 | h2
          · exact Or.inl h2
          · exact Or.inr ⟨Nat.le_antisymm h2 (heq ▸ hyx), hx z (List.mem_cons_of_mem y hz2)⟩
    · have hlt : x.2 < y.2 := by
        have : ¬ y.2 ≤ x.2 := by
          intro hc
          exact hxy (by simpa [byFreqDesc, decide_eq_true_eq] using hc)
        omega
      simp only [Bool.not_eq_true] at hxy
      simp only [insertStable, hxy, Bool.false_eq_true, if_false]
      have hxs : ∀ y2 ∈ ys, strLtB x.1 y2.1 = true := by
        intro y2 hy2
        exact hx y2 (List.mem_cons_of_mem y hy2)
      refine List.pairwise_cons.mpr ⟨?_, insertStable_pairwise_pairOrd x ys hys hxs⟩
      intro z hz
      rcases (mem_insertStable byFreqDesc x z ys).mp hz with rfl | hz2
      · exact Or.inl hlt
      · exact hy z hz2

theorem pySorted_pairwise_pairOrd :
    ∀ l : List (String × Nat), l.Pairwise (fun a b => strLtB a.1 b.1 = true) →
      (pySorted byFreqDesc l).Pairwise pairOrd
  | [], _ => by simp [pySorted]
  | x :: xs, hl => by
    rcases List.pairwise_cons.mp hl with ⟨hx, hxs⟩
    simp only [pySorted]
    refine insertStable_pairwise_pairOrd x (pySorted byFreqDesc xs)
      (pySorted_pairwise_pairOrd xs hxs) ?_
    intro y hy
    exact hx y ((mem_pySorted byFreqDesc y xs).mp hy)

/-! Counter lemmas: `bump`, key distinctness and counts. -/

theorem bump_keys (t : String) : ∀ c : List (String × Nat),
    (bump c t).map Prod.fst =
      if t ∈ c.map Prod.fst then c.map Prod.fst else c.map Prod.fst ++ [t]
  | [] => by simp [bump]
  | (k, n) :: rest => by
    by_cases hk : k = t
    · subst hk
      simp [bump]
    · have := bump_keys t rest
      simp only [bump, hk, if_false, List.map_cons]
      by_cases hmem : t ∈ rest.map Prod.fst
      · simp_all [Ne.symm hk]
      · simp_all [Ne.symm hk]

theorem keys_nodup_bump (t : String) (c : List (String × Nat))
    (h : (c.map Prod.fst).Nodup) : ((bump c t).map Prod.fst).Nodup := by
  rw [bump_keys]
  by_cases hmem : t ∈ c.map Prod.fst
  · simpa [hmem] using h
  · simp only [hmem, if_false]
    simpa [List.nodup_append, hmem] using h

theorem countOf_cons (k s : String) (n : Nat) (rest : List (String × Nat)) :
    countOf ((k, n) :: rest) s = if k = s then n else countOf rest s := by
  by_cases h : k = s
  · simp [countOf, List.find?_cons, h]
  · simp [countOf, List.find?_cons, h]

theorem countOf_bump (t s : String) : ∀ c : List (String × Nat),
    countOf (bump c t) s = countOf c s + (if s = t then 1 else 0)
  | [] => by
    by_cases h : s = t
    · subst h
      simp [bump, countOf_cons, countOf]
    · simp [bump, countOf_cons, countOf, Ne.symm h, h]
  | (k, n) :: rest => by
    by_cases hk : k = t
    · subst hk
      by_cases hs : k = s
      · subst hs
        simp [bump, countOf_cons]
      · simp [bump, countOf_cons, hs, Ne.symm hs]
    · have hrec := countOf_bump t s rest
      simp only [bump, hk, if_false, countOf_cons]
      by_cases hs : k = s
      · subst hs
        simp [hk]
      · simp [hs, hrec]

theorem countOf_foldl_bump (s : String) : ∀ (toks : List String) (c : List (String × Nat)),
    countOf (toks.foldl bump c) s = countOf c s + toks.count s
  | [], c => by simp
  | t :: rest, c => by
    have h1 := countOf_foldl_bump s rest (bump c t)
    have h2 := countOf_bump t s c
    by_cases hs : s = t
    · subst hs
      simp_all [List.count_cons]
      omega
    · have : (t == s) = false := by
        simp [Ne.symm hs]
      simp_all [List.count_cons, this]

theorem keys_nodup_foldl_bump : ∀ (toks : List String) (c : List (String × Nat)),
    (c.map Prod.fst).Nodup → ((toks.foldl bump c).map Prod.fst).Nodup
  | [], _, h => h
  | t :: rest, c, h => keys_nodup_foldl_bump rest (bump c t) (keys_nodup_bump t c h)

theorem countOf_of_mem_nodup (w : String) (f : Nat) : ∀ d : List (String × Nat),
    (d.map Prod.fst).Nodup → (w, f) ∈ d → countOf d w = f
  | [], _, hmem => by simp at hmem
  | (a, n) :: rest, hnd, hmem => by
    simp only [List.map_cons, List.nodup_cons] at hnd
    rcases List.mem_cons.mp hmem with heq | hmem2
    · cases heq
      simp [countOf_cons]
    · have ha : a ≠ w := by
        intro h
        subst h
        exact hnd.1 (List.mem_map.mpr ⟨(a, f), hmem2, rfl⟩)
      rw [countOf_cons, if_neg ha]
      exact countOf_of_mem_nodup w f rest hnd.2 hmem2

/-! Lemmas on `enumFromN`, `dictUpdate`, `mkStoi` and `lastIdxOf`. -/

theorem enumFromN_map_snd : ∀ (n : Nat) (l : List String),
    (enumFromN n l).map (fun p => p.2) = l
  | _, [] => rfl
  | n, x :: xs => by simp [enumFromN, enumFromN_map_snd (n + 1) xs]

theorem itosFind_cons (k j : Nat) (s : String) (rest : List (Nat × String)) :
    itosFind ((k, s) :: rest) j = if k = j then some s else itosFind rest j := by
  by_cases h : k = j
  · simp [itosFind, List.find?_cons, h]
  · simp [itosFind, List.find?_cons, h]

theorem stoiFind_cons (k t : String) (n : Nat) (rest : List (String × Nat)) :
    stoiFind ((k, n) :: rest) t = if k = t then some n else stoiFind rest t := by
  by_cases h : k = t
  · simp [stoiFind, List.find?_cons, h]
  · simp [stoiFind, List.find?_cons, h]

theorem itosFind_enumFromN : ∀ (l : List String) (n j : Nat),
    itosFind (enumFromN n l) j = if n ≤ j then nth l (j - n) else none
  | [], n, j => by simp [enumFromN, itosFind, nth]
  | x :: xs, n, j => by
    rw [enumFromN, itosFind_cons]
    by_cases h : n = j
    · subst h
      simp [nth]
    · rw [if_neg h, itosFind_enumFromN xs (n + 1) j]
      by_cases h2 : n ≤ j
      · have h3 : n + 1 ≤ j := by omega
        have h4 : j - n = (j - (n + 1)) + 1 := by omega
        simp [h2, h3, h4, nth]
      · have h3 : ¬ n + 1 ≤ j := by omega
        simp [h2, h3]

theorem itosFind_enum0 (l : List String) (j : Nat) :
    itosFind (enumFromN 0 l) j = nth l j := by
  simp [itosFind_enumFromN]

theorem hasKeyS_iff (d : List (String × Nat)) (k : String) :
    hasKeyS d k = true ↔ k ∈ d.map Prod.fst := by
  simp [hasKeyS, List.any_eq_true, List.mem_map]

theorem stoiFind_map_update (k t : String) (v : Nat) (hne : t ≠ k) :
    ∀ d : List (String × Nat),
      stoiFind (d.map (fun p => if p.1 = k then (k, v) else p)) t = stoiFind d t
  | [] => rfl
  | (a, n) :: rest => by
    by_cases ha : a = k
    · subst ha
      have hat : ¬ a = t := fun h => hne h.symm
      rw [List.map_cons, if_pos rfl, stoiFind_cons, if_neg hat, stoiFind_cons, if_neg hat]
      exact stoiFind_map_update a t v hne rest
    · simp only [List.map_cons, if_neg ha, stoiFind_cons]
      by_cases hat : a = t
      · simp [hat]
      · simp only [if_neg hat]
        exact stoiFind_map_update k t v hne rest

theorem dictUpdate_cons_ne (a k : String) (n v : Nat) (rest : List (String × Nat))
    (h : a ≠ k) :
    dictUpdate ((a, n) :: rest) k v = (a, n) :: dictUpdate rest k v := by
  have hck : hasKeyS ((a, n) :: rest) k = hasKeyS rest k := by
    simp [hasKeyS, h]
  by_cases h2 : hasKeyS rest k = true
  · simp only [dictUpdate, hck, h2, if_true, List.map_cons, if_neg h]
  · simp only [Bool.not_eq_true] at h2
    simp only [dictUpdate, hck, h2, Bool.false_eq_true, if_false, List.cons_append]

theorem stoiFind_dictUpdate (k t : String) (v : Nat) : ∀ d : List (String × Nat),
    stoiFind (dictUpdate d k v) t = if t = k then some v else stoiFind d t
  | [] => by
    have h2 : dictUpdate [] k v = [(k, v)] := by simp [dictUpdate, hasKeyS]
    rw [h2, stoiFind_cons]
    by_cases h : t = k
    · simp [h]
    · have h3 : ¬ k = t := fun hh => h hh.symm
      simp [h, h3, stoiFind]
  | (a, n) :: rest => by
    by_cases ha : a = k
    · subst ha
      have hk : hasKeyS ((a, n) :: rest) a = true := by
        simp [hasKeyS]
      simp only [dictUpdate, hk, if_true, List.map_cons, if_pos rfl]
      by_cases ht : t = a
      · subst ht
        simp [stoiFind_cons]
      · have ht2 : ¬ a = t := fun h => ht h.symm
        rw [stoiFind_cons, if_neg ht2, if_neg ht, stoiFind_cons, if_neg ht2]
        exact stoiFind_map_update a t v ht rest
    · rw [dictUpdate_cons_ne a k n v rest ha, stoiFind_cons, stoiFind_cons]
      by_cases hat : a = t
      · subst hat
        simp [ha]
      · simp only [if_neg hat]
        exact stoiFind_dictUpdate k t v rest

theorem mkStoi_go (t : String) : ∀ (l : List String) (n : Nat) (d : List (String × Nat)),
    stoiFind ((enumFromN n l).foldl (fun d2 p => dictUpdate d2 p.2 p.1) d) t =
      (match lastIdxOf l t with
       | some i => some (n + i)
       | none => stoiFind d t)
  | [], _, _ => by simp [enumFromN, lastIdxOf]
  | x :: xs, n, d => by
    rw [enumFromN]
    simp only [List.foldl_cons]
    rw [mkStoi_go t xs (n + 1) (dictUpdate d x n)]
    rw [lastIdxOf]
    cases hx : lastIdxOf xs t with
    | some i => simp [Nat.add_assoc, Nat.add_comm 1 i]
    | none =>
      rw [stoiFind_dictUpdate]
      by_cases hxt : x = t
      · simp [hxt]
      · have h1 : ¬ t = x := fun h => hxt h.symm
        simp [hxt, h1]

theorem stoiFind_mkStoi (l : List String) (t : String) :
    stoiFind (mkStoi l) t = lastIdxOf l t := by
  rw [mkStoi, mkStoi_go]
  cases h : lastIdxOf l t with
  | some i => simp
  | none => simp [stoiFind]

theorem lastIdxOf_nth (t : String) : ∀ (l : List String) (i : Nat),
    lastIdxOf l t = some i → nth l i = some t
  | [], i => by simp [lastIdxOf]
  | x :: xs, i => by
    rw [lastIdxOf]
    cases hx : lastIdxOf xs t with
    | some j =>
      intro h
      cases h
      simpa [nth] using lastIdxOf_nth t xs j hx
    | none =>
      by_cases hxt : x = t
      · subst hxt
        intro h
        simp only [if_pos rfl, Option.some.injEq] at h
        cases h
        simp [nth]
      · simp [hxt]

theorem lastIdxOf_isSome (t : String) : ∀ l : List String,
    (lastIdxOf l t).isSome = true ↔ t ∈ l
  | [] => by simp [lastIdxOf]
  | x :: xs => by
    rw [lastIdxOf]
    cases hx : lastIdxOf xs t with
    | some j =>
      have : t ∈ xs := (lastIdxOf_isSome t xs).mp (by simp [hx])
      simp [this]
    | none =>
      have hxs : ¬ t ∈ xs := fun h => by
        have := (lastIdxOf_isSome t xs).mpr h
        simp [hx] at this
      by_cases hxt : x = t
      · simp [hxt]
      · have h1 : ¬ t = x := fun h => hxt h.symm
        simp [hxt, hxs, h1]

/-! Decomposition of the single fold of `make_vocab` into its two
components, and the resulting counting facts. -/

theorem make_vocab_file_go (file : List (List String)) :
    ∀ (a : List (String × Nat)) (b : Nat),
      file.foldl
        (fun st2 cap =>
          (cap.foldl bump st2.1,
           if cap.length + 2 > st2.2 then cap.length + 2 else st2.2)) (a, b) =
      (file.foldl (fun c cap => cap.foldl bump c) a,
       file.foldl (fun m cap => if cap.length + 2 > m then cap.length + 2 else m) b) := by
  induction file with
  | nil => intro a b; rfl
  | cons cap rest ih =>
    intro a b
    simp only [List.foldl_cons]
    exact ih (cap.foldl bump a) (if cap.length + 2 > b then cap.length + 2 else b)

theorem make_vocab_go (files : List (List (List String))) :
    ∀ (a : List (String × Nat)) (b : Nat),
      files.foldl
        (fun st file =>
          file.foldl
            (fun st2 cap =>
              (cap.foldl bump st2.1,
               if cap.length + 2 > st2.2 then cap.length + 2 else st2.2)) st) (a, b) =
      (files.foldl (fun c file => file.foldl (fun c2 cap => cap.foldl bump c2) c) a,
       files.foldl
         (fun m file =>
           file.foldl (fun m2 cap => if cap.length + 2 > m2 then cap.length + 2 else m2) m) b) := by
  induction files with
  | nil => intro a b; rfl
  | cons file rest ih =>
    intro a b
    simp only [List.foldl_cons]
    rw [make_vocab_file_go file a b]
    exact ih _ _

theorem make_vocab_fst (files : List (List (List String))) :
    (make_vocab files).1 =
      files.foldl (fun c file => file.foldl (fun c2 cap => cap.foldl bump c2) c) [] := by
  rw [make_vocab, make_vocab_go]

theorem countOf_foldl_file (s : String) : ∀ (file : List (List String)) (c : List (String × Nat)),
    countOf (file.foldl (fun c2 cap => cap.foldl bump c2) c) s =
      countOf c s + file.flatten.count s
  | [], c => by simp
  | cap :: rest, c => by
    simp only [List.foldl_cons, List.flatten_cons, List.count_append]
    rw [countOf_foldl_file s rest (cap.foldl bump c), countOf_foldl_bump]
    omega

theorem countOf_make_vocab (files : List (List (List String))) (s : String) :
    countOf (make_vocab files).1 s = (files.flatten.flatten).count s := by
  rw [make_vocab_fst]
  suffices h : ∀ (fs : List (List (List String))) (c : List (String × Nat)),
      countOf (fs.foldl (fun c2 file => file.foldl (fun c3 cap => cap.foldl bump c3) c2) c) s =
        countOf c s + (fs.flatten.flatten).count s by
    have := h files []
    simpa [countOf] using this
  intro fs
  induction fs with
  | nil => intro c; simp
  | cons file rest ih =>
    intro c
    simp only [List.foldl_cons, List.flatten_cons, List.flatten_append, List.count_append]
    rw [ih (file.foldl (fun c3 cap => cap.foldl bump c3) c), countOf_foldl_file]
    omega

theorem keys_nodup_make_vocab (files : List (List (List String))) :
    ((make_vocab files).1.map Prod.fst).Nodup := by
  rw [make_vocab_fst]
  suffices h : ∀ (fs : List (List (List String))) (c : List (String × Nat)),
      (c.map Prod.fst).Nodup →
      ((fs.foldl (fun c2 file => file.foldl (fun c3 cap => cap.foldl bump c3) c2) c).map
        Prod.fst).Nodup by
    exact h files [] (by simp)
  intro fs
  induction fs with
  | nil => intro c hc; exact hc
  | cons file rest ih =>
    intro c hc
    simp only [List.foldl_cons]
    refine ih _ ?_
    clear ih
    induction file generalizing c with
    | nil => exact hc
    | cons cap caps ihf =>
      simp only [List.foldl_cons]
      exact ihf _ (keys_nodup_foldl_bump cap c hc)

/-! Characterization of the token-collection loop for `max_size = None`. -/

theorem build_itos_none (mf : Nat) : ∀ (wf : List (String × Nat)) (acc : List String),
    build_itos mf none acc wf =
      acc ++ (wf.takeWhile (fun p => ! decide (p.2 < mf))).map Prod.fst
  | [], acc => by simp [build_itos]
  | (w, f) :: rest, acc => by
    by_cases hf : f < mf
    · simp [build_itos, hf, List.takeWhile_cons]
    · simp only [build_itos, hf, false_or, if_neg (by simp : ¬ (False ∨ none = some acc.length))]
      rw [build_itos_none mf rest (acc ++ [w])]
      simp [List.takeWhile_cons, hf]

/-! Inversion of a successful construction. -/

theorem init_ok_inv (files : List (List (List String))) (ms : Option Nat) (mf : Nat)
    (bt et pt ut : String) (v : Vocab)
    (hv : Vocab.init files ms mf bt et pt ut = .ok v) :
    v.freqs = (make_vocab files).1 ∧
    v.max_caption_length = (make_vocab files).2 ∧
    v.padding_token = pt ∧ v.bos_token = bt ∧ v.eos_token = et ∧ v.unk_token = ut ∧
    v.specials = [pt, bt, et, ut] ∧
    v.itos = enumFromN 0 (build_itos (max mf 1) none [pt, bt, et, ut]
      (words_and_frequencies (make_vocab files).1)) ∧
    v.stoi = mkStoi (build_itos (max mf 1) none [pt, bt, et, ut]
      (words_and_frequencies (make_vocab files).1)) ∧
    stoiFind v.stoi pt = some v.padding_idx ∧
    stoiFind v.stoi bt = some v.bos_idx ∧
    stoiFind v.stoi et = some v.eos_idx ∧
    stoiFind v.stoi ut = some v.unk_idx := by
  cases ms with
  | some n => simp [Vocab.init] at hv
  | none =>
    simp only [Vocab.init] at hv
    split at hv
    · rename_i pi bi ei ui hpi hbi hei hui
      cases hv
      refine ⟨rfl, rfl, rfl, rfl, rfl, rfl, rfl, rfl, rfl, ?_, ?_, ?_, ?_⟩
      · exact hpi
      · exact hbi
      · exact hei
      · exact hui
    · simp at hv

/-! The encode loop: success and failure characterization. -/

theorem set_append_cons (x s : Nat) : ∀ (pre suf : List Nat),
    (pre ++ s :: suf).set pre.length x = pre ++ x :: suf
  | [], _ => rfl
  | p :: ps, suf => by
    simp only [List.cons_append, List.length_cons, List.set_cons_succ]
    rw [set_append_cons x s ps suf]

theorem encode_loop_ok (stoi : List (String × Nat)) (unk_idx : Nat) :
    ∀ (toks : List String) (pre suf : List Nat), toks.length ≤ suf.length →
      encode_loop stoi unk_idx (pre ++ suf) pre.length toks =
        some (pre ++ toks.map
          (fun t => match stoiFind stoi t with | some j => j | none => unk_idx) ++
          suf.drop toks.length)
  | [], pre, suf, _ => by simp [encode_loop]
  | t :: rest, pre, suf, hlen => by
    match suf, hlen with
    | s :: suf2, hlen =>
      have hwrite : write_at (pre ++ s :: suf2) pre.length
          (match stoiFind stoi t with | some j => j | none => unk_idx) =
          some (pre ++ (match stoiFind stoi t with | some j => j | none => unk_idx) :: suf2) := by
        rw [write_at, if_pos (by simp), set_append_cons]
      rw [encode_loop, hwrite]
      have hlen2 : rest.length ≤ suf2.length := by
        simpa using hlen
      have := encode_loop_ok stoi unk_idx rest
        (pre ++ [match stoiFind stoi t with | some j => j | none => unk_idx]) suf2 hlen2
      simp only [List.length_append, List.length_cons, List.length_nil] at this ⊢
      rw [show pre.length + 1 = pre.length + (0 + 1) by omega] at this
      simp only [List.append_assoc, List.cons_append, List.nil_append] at this ⊢
      rw [this]
      simp [List.drop]

theorem encode_loop_err (stoi : List (String × Nat)) (unk_idx : Nat) :
    ∀ (toks : List String) (vec : List Nat) (i : Nat), toks ≠ [] →
      vec.length < i + toks.length → encode_loop stoi unk_idx vec i toks = none
  | [], _, _, hne, _ => absurd rfl hne
  | t :: rest, vec, i, _, hlen => by
    rw [encode_loop]
    by_cases hi : i < vec.length
    · have hw : write_at vec i
          (match stoiFind stoi t with | some j => j | none => unk_idx) =
          some (vec.set i (match stoiFind stoi t with | some j => j | none => unk_idx)) := by
        rw [write_at, if_pos hi]
      rw [hw]
      have hrest : rest ≠ [] := by
        intro h
        subst h
        simp at hlen
        omega
      refine encode_loop_err stoi unk_idx rest _ (i + 1) hrest ?_
      simp only [List.length_set]
      simp only [List.length_cons] at hlen
      omega
    · rw [write_at, if_neg hi]

theorem encode_caption_eq (v : Vocab) (caption : List String)
    (hlen : caption.length + 2 ≤ v.max_caption_length) :
    v.encode_caption caption =
      some ((([v.bos_token] ++ caption ++ [v.eos_token]).map
        (fun t => match stoiFind v.stoi t with | some j => j | none => v.unk_idx)) ++
        List.replicate (v.max_caption_length - (caption.length + 2)) v.padding_idx) := by
  rw [Vocab.encode_caption]
  have h0 : (List.replicate v.max_caption_length v.padding_idx) =
      [] ++ (List.replicate v.max_caption_length v.padding_idx) := by simp
  have hlen2 : ([v.bos_token] ++ caption ++ [v.eos_token]).length ≤
      (List.replicate v.max_caption_length v.padding_idx).length := by
    simp [List.length_replicate]
    omega
  have := encode_loop_ok v.stoi v.unk_idx ([v.bos_token] ++ caption ++ [v.eos_token])
    [] (List.replicate v.max_caption_length v.padding_idx) hlen2
  simp only [List.length_nil, List.nil_append] at this
  rw [this, List.drop_replicate]
  have : ([v.bos_token] ++ caption ++ [v.eos_token]).length = caption.length + 2 := by
    simp
  rw [this]

theorem encode_caption_isSome (v : Vocab) (caption : List String) :
    (v.encode_caption caption).isSome = true ↔
      caption.length + 2 ≤ v.max_caption_length := by
  constructor
  · intro h
    by_contra hlen
    have hne : ([v.bos_token] ++ caption ++ [v.eos_token]) ≠ [] := by simp
    have hl : (List.replicate v.max_caption_length v.padding_idx).length <
        0 + ([v.bos_token] ++ caption ++ [v.eos_token]).length := by
      simp [List.length_replicate]
      omega
    have := encode_loop_err v.stoi v.unk_idx ([v.bos_token] ++ caption ++ [v.eos_token])
      (List.replicate v.max_caption_length v.padding_idx) 0 hne hl
    rw [Vocab.encode_caption] at h
    rw [this] at h
    simp at h
  · intro h
    rw [encode_caption_eq v caption h]
    simp

/-! The decode walk. -/

theorem decode_row_no_eos (v : Vocab) :
    ∀ (row : List Nat) (acc : List String),
      (∀ i ∈ row, i ≠ v.eos_idx) →
      (∀ i ∈ row, (itosFind v.itos i).isSome = true) →
      v.decode_row row acc = .ok (acc ++ row.filterMap
        (fun i => match itosFind v.itos i with
          | some tok => if tok ∈ v.specials then none else some tok
          | none => none))
  | [], acc, _, _ => by simp [Vocab.decode_row]
  | idx :: rest, acc, h1, h2 => by
    obtain ⟨tok, htok⟩ := Option.isSome_iff_exists.mp (h2 idx (List.mem_cons_self idx rest))
    have hne : ¬ idx = v.eos_idx := h1 idx (List.mem_cons_self idx rest)
    rw [Vocab.decode_row, htok]
    simp only [if_neg hne]
    have h1r : ∀ i ∈ rest, i ≠ v.eos_idx := fun i hi => h1 i (List.mem_cons_of_mem idx hi)
    have h2r : ∀ i ∈ rest, (itosFind v.itos i).isSome = true :=
      fun i hi => h2 i (List.mem_cons_of_mem idx hi)
    rw [List.filterMap_cons, htok]
    by_cases hsp : tok ∈ v.specials
    · simp only [if_pos hsp]
      exact decode_row_no_eos v rest acc h1r h2r
    · simp only [if_neg hsp]
      rw [decode_row_no_eos v rest (acc ++ [tok]) h1r h2r]
      simp

theorem decode_row_pad (v : Vocab)
    (hfind : itosFind v.itos v.padding_idx = some v.padding_token)
    (hsp : v.padding_token ∈ v.specials) :
    ∀ (n : Nat) (acc : List String),
      v.decode_row (List.replicate n v.padding_idx) acc = .ok acc
  | 0, acc => by simp [Vocab.decode_row]
  | n + 1, acc => by
    rw [List.replicate_succ, Vocab.decode_row, hfind]
    simp only [if_pos hsp]
    by_cases he : v.padding_idx = v.eos_idx
    · simp [he]
    · simp only [if_neg he]
      exact decode_row_pad v hfind hsp n acc

theorem decode_caption_single (v : Vocab) (row : List Nat) (jw : Bool) (ws : List String)
    (h : v.decode_row row [] = .ok ws) :
    v.decode_caption [row] jw =
      .ok [if jw then Sum.inl (String.mk (pyJoinSpace ws))
           else Sum.inr (pySplitWs (pyJoinSpace ws))] := by
  rw [Vocab.decode_caption, h]
  rfl

theorem decode_walk (v : Vocab)
    (hP1 : ∀ t j, stoiFind v.stoi t = some j → itosFind v.itos j = some t)
    (heos : stoiFind v.stoi v.eos_token = some v.eos_idx)
    (hspe : v.eos_token ∈ v.specials) :
    ∀ (T : List String) (pads : List Nat) (acc : List String),
      (∀ t ∈ T, (stoiFind v.stoi t).isSome = true ∧ t ∉ v.specials) →
      v.decode_row ((T.map (fun t =>
          match stoiFind v.stoi t with | some j => j | none => v.unk_idx)) ++
          v.eos_idx :: pads) acc = .ok (acc ++ T)
  | [], pads, acc, _ => by
    rw [List.map_nil, List.nil_append, Vocab.decode_row, hP1 v.eos_token v.eos_idx heos]
    simp [hspe]
  | t :: ts, pads, acc, hT => by
    obtain ⟨hsome, hnsp⟩ := hT t (List.mem_cons_self t ts)
    obtain ⟨j, hj⟩ := Option.isSome_iff_exists.mp hsome
    have hfind : itosFind v.itos j = some t := hP1 t j hj
    have hjne : ¬ j = v.eos_idx := by
      intro h
      subst h
      have := hP1 v.eos_token v.eos_idx heos
      rw [hfind] at this
      cases this
      exact hnsp hspe
    rw [List.map_cons, hj, List.cons_append, Vocab.decode_row, hfind]
    simp only [if_neg hnsp, if_neg hjne]
    rw [decode_walk v hP1 heos hspe ts pads (acc ++ [t])
      (fun u hu => hT u (List.mem_cons_of_mem t hu))]
    simp

/-! Round trip of `" ".join` with `strip().split()`. -/

theorem splitWsGo_chunk : ∀ (w : List Char), (∀ c ∈ w, pyIsSpace c = false) →
    ∀ (rest cur : List Char), splitWsGo (w ++ rest) cur = splitWsGo rest (w.reverse ++ cur)
  | [], _ => by simp
  | c :: w2, hw => by
    intro rest cur
    have hc : pyIsSpace c = false := hw c (List.mem_cons_self c w2)
    rw [List.cons_append, splitWsGo]
    simp only [hc, Bool.false_eq_true, if_false]
    rw [splitWsGo_chunk w2 (fun d hd => hw d (List.mem_cons_of_mem c hd)) rest (c :: cur)]
    simp

theorem data_ne_nil (w : String) (h : w ≠ "") : w.data ≠ [] := by
  intro hd
  apply h
  cases w
  simp_all

theorem pySplitWs_join : ∀ ws : List String,
    (∀ w ∈ ws, w ≠ "" ∧ ∀ c ∈ w.data, pyIsSpace c = false) →
    pySplitWs (pyJoinSpace ws) = ws
  | [], _ => rfl
  | [w], hw => by
    obtain ⟨hne, hch⟩ := hw w (List.mem_cons_self w [])
    rw [pyJoinSpace, pySplitWs]
    have : w.data = w.data ++ [] := by simp
    rw [this, splitWsGo_chunk w.data hch [] []]
    rw [splitWsGo]
    have : (w.data.reverse ++ []).isEmpty = false := by
      simp [List.isEmpty_iff, data_ne_nil w hne]
    simp [this, data_ne_nil w hne]
  | w :: w2 :: rest, hw => by
    obtain ⟨hne, hch⟩ := hw w (List.mem_cons_self w (w2 :: rest))
    have hjoin : pyJoinSpace (w :: w2 :: rest) =
        w.data ++ ' ' :: pyJoinSpace (w2 :: rest) := rfl
    rw [pySplitWs, hjoin, splitWsGo_chunk w.data hch (' ' :: pyJoinSpace (w2 :: rest)) []]
    rw [splitWsGo]
    have hsp : pyIsSpace ' ' = true := rfl
    have hemp : (w.data.reverse ++ []).isEmpty = false := by
      simp [List.isEmpty_iff, data_ne_nil w hne]
    simp only [hsp, if_true, hemp, Bool.false_eq_true, if_false]
    have hrec := pySplitWs_join (w2 :: rest)
      (fun u hu => hw u (List.mem_cons_of_mem w hu))
    rw [pySplitWs] at hrec
    simp only [List.map_cons, List.append_nil, List.reverse_reverse, hrec]

/-! Comparator facts and the stoi-to-itos direction for constructed vocabs. -/

theorem byWord_total (a b : String × Nat) : byWord a b = true ∨ byWord b a = true :=
  strLeB_total a.1 b.1

theorem byWord_trans (a b c : String × Nat) (h1 : byWord a b = true)
    (h2 : byWord b c = true) : byWord a c = true :=
  strLeB_trans a.1 b.1 c.1 h1 h2

theorem init_P1 (files : List (List (List String))) (ms : Option Nat) (mf : Nat)
    (bt et pt ut : String) (v : Vocab)
    (hv : Vocab.init files ms mf bt et pt ut = .ok v) :
    ∀ (t : String) (j : Nat), stoiFind v.stoi t = some j → itosFind v.itos j = some t := by
  obtain ⟨h1, h2, h3, h4, h5, h6, h7, hitos, hstoi, h10, h11, h12, h13⟩ :=
    init_ok_inv files ms mf bt et pt ut v hv
  intro t j h
  rw [hstoi, stoiFind_mkStoi] at h
  rw [hitos, itosFind_enum0]
  exact lastIdxOf_nth t _ j h

/-- Claim C1 (code bug): the stoi/itos pair of a constructed vocabulary is
not always a pair of exact inverses. When an annotation caption contains
the padding-token string itself, lines 78-79 of vocab.py delete it only
from the counter copy, after the sorted snapshot of line 53 was taken, so
the token is appended to `itos` a second time: here `itos` maps both 0 and
4 to the padding token while `stoi` maps it to 4, hence
`stoi[itos[0]] = 4 != 0` (and `padding_idx` becomes 4, not 0). -/
theorem C1_inverse_broken_eval :
    Vocab.init [[["<pad>"]]] none 1 "<bos>" "<eos>" "<pad>" "<unk>" = .ok vPad ∧
    itosFind vPad.itos 0 = some "<pad>" ∧
    itosFind vPad.itos 4 = some "<pad>" ∧
    stoiFind vPad.stoi "<pad>" = some 4 ∧
    stoiFind vPad.stoi "<pad>" ≠ some 0 ∧
    vPad.padding_idx = 4 := by
  refine ⟨rfl, rfl, rfl, rfl, ?_, rfl⟩
  decide

/-- Claim C2 (counterexample): encode_caption does not return a sequence
for every token list; when the input overflows `max_caption_length` the
indexed write raises IndexError (modelled by `none`). -/
theorem C2_encode_overflow_cex :
    Vocab.init [[["x"]]] none 1 "<bos>" "<eos>" "<pad>" "<unk>" = .ok vC2 ∧
    vC2.max_caption_length = 3 ∧
    vC2.encode_caption ["p", "q"] = none := ⟨rfl, rfl, rfl⟩

/-- Claim C2 (amended): for every constructed vocabulary and every token
list T with len(T) + 2 <= max_caption_length, encode returns the vector
[bos_idx] ++ (stoi lookups with unk fallback) ++ [eos_idx] ++ padding, and
any returned vector has length exactly max_caption_length. -/
theorem C2_encode_shape (files : List (List (List String))) (ms : Option Nat) (mf : Nat)
    (bt et pt ut : String) (v : Vocab)
    (hv : Vocab.init files ms mf bt et pt ut = .ok v)
    (T : List String) (hlen : T.length + 2 ≤ v.max_caption_length) :
    v.encode_caption T = some (v.bos_idx ::
      (T.map (fun t => match stoiFind v.stoi t with | some j => j | none => v.unk_idx) ++
        (v.eos_idx ::
          List.replicate (v.max_caption_length - (T.length + 2)) v.padding_idx))) ∧
    (∀ enc, v.encode_caption T = some enc → enc.length = v.max_caption_length) := by
  obtain ⟨h1, h2, h3, hbt, het, h6, h7, hitos, hstoi, h10, hbos, heos, h13⟩ :=
    init_ok_inv files ms mf bt et pt ut v hv
  have hmain := encode_caption_eq v T hlen
  have hb : (match stoiFind v.stoi v.bos_token with
      | some j => j | none => v.unk_idx) = v.bos_idx := by
    rw [hbt, hbos]
  have he : (match stoiFind v.stoi v.eos_token with
      | some j => j | none => v.unk_idx) = v.eos_idx := by
    rw [het, heos]
  rw [List.map_append, List.map_append, List.map_cons, List.map_nil, List.map_cons,
    List.map_nil, hb, he] at hmain
  constructor
  · rw [hmain]
    simp
  · intro enc henc
    rw [hmain] at henc
    cases henc
    simp [List.length_replicate]
    omega

/-- Claim C4 (counterexample): encode_caption raises when the caption
overflows: with max_caption_length 3 the fourth write is out of range and
IndexError is raised (`none`), rather than failing silently. -/
theorem C4_encode_raises_cex :
    Vocab.init [[["hello"]]] none 1 "<bos>" "<eos>" "<pad>" "<unk>" = .ok vC4 ∧
    vC4.max_caption_length = 3 ∧
    vC4.encode_caption ["a", "b"] = none := ⟨rfl, rfl, rfl⟩

/-- Claim C4 (amended): encode_caption returns normally exactly when
len(T) + 2 <= max_caption_length; otherwise the loop of line 117-118
performs an out-of-range tensor write and raises IndexError. -/
theorem C4_encode_raises_iff (v : Vocab) (caption : List String) :
    (v.encode_caption caption).isSome = true ↔
      caption.length + 2 ≤ v.max_caption_length :=
  encode_caption_isSome v caption

/-- Claim C7 (code bug): every construction with a non-None max_size
raises AttributeError at line 45 of vocab.py (`max_size + len(self.itos)`
is evaluated before `self.itos` is ever assigned), so construction never
completes, for any inputs whatsoever. -/
theorem C7_max_size_crash (files : List (List (List String))) (n mf : Nat)
    (bt et pt ut : String) :
    Vocab.init files (some n) mf bt et pt ut =
      .error "AttributeError: Vocab object has no attribute itos" := rfl

/-- Claim C8 (code bug): extend is never a no-op on constructed
vocabularies; even when every token of the other vocabulary is already
present (here: extending vA with itself), the loop iterates the integer
keys of the `itos` dict and calls `append` on that dict, raising
AttributeError instead of leaving the vocabulary unchanged. -/
theorem C8_extend_crash_eval :
    (∀ p ∈ vA.itos, (stoiFind vA.stoi p.2).isSome = true) ∧
    Vocab.extend vA vA false =
      .error "AttributeError: dict object has no attribute append" := by
  refine ⟨?_, rfl⟩
  decide

/-- Claim C9 (counterexample): the stored frequency table does keep an
entry for a special token that occurs inside a caption: lines 78-79 of
vocab.py delete special tokens only from the temporary counter copy,
never from `self.freqs`. -/
theorem C9_special_counted_cex :
    Vocab.init [[["<eos>", "w"]]] none 1 "<bos>" "<eos>" "<pad>" "<unk>" = .ok vC9 ∧
    countOf vC9.freqs "<eos>" = 1 ∧
    (vC9.freqs.find? (fun p => decide (p.1 = "<eos>"))).isSome = true := ⟨rfl, rfl, rfl⟩

/-- Claim C9 (amended): after construction the stored frequency table maps
every token string - special-token strings included - to its total
occurrence count across all annotation files. -/
theorem C9_freqs_total_counts (files : List (List (List String))) (ms : Option Nat)
    (mf : Nat) (bt et pt ut : String) (v : Vocab)
    (hv : Vocab.init files ms mf bt et pt ut = .ok v) (t : String) :
    countOf v.freqs t = (files.flatten.flatten).count t := by
  obtain ⟨h1, h2, h3, h4, h5, h6, h7, h8, h9, h10, h11, h12, h13⟩ :=
    init_ok_inv files ms mf bt et pt ut v hv
  rw [h1, countOf_make_vocab]

/-- Witness for C2 at the two-caption scenario vocabulary. -/
theorem C2_encode_shape_witness :
    vA.encode_caption ["a", "cat"] = some (vA.bos_idx ::
      (["a", "cat"].map (fun t =>
        match stoiFind vA.stoi t with | some j => j | none => vA.unk_idx) ++
        (vA.eos_idx ::
          List.replicate (vA.max_caption_length - (["a", "cat"].length + 2))
            vA.padding_idx))) ∧
    (∀ enc, vA.encode_caption ["a", "cat"] = some enc →
      enc.length = vA.max_caption_length) :=
  C2_encode_shape capsA none 1 "<bos>" "<eos>" "<pad>" "<unk>" vA rfl ["a", "cat"]
    (by decide)

/-- Witness for C9 at the two-caption scenario vocabulary. -/
theorem C9_freqs_total_counts_witness :
    countOf vA.freqs "runs" = (capsA.flatten.flatten).count "runs" :=
  C9_freqs_total_counts capsA none 1 "<bos>" "<eos>" "<pad>" "<unk>" vA rfl "runs"

/-- Claim C5: in every successful construction (necessarily without a
pretrained language model and with max_size None, since any other
max_size crashes), the index-to-token mapping starts with the four
special tokens in the order padding, bos, eos, unk at indices 0..3, and
the remaining entries are ordered by strictly descending stored frequency
with ties broken by ascending code-point (alphabetical) order. -/
theorem C5_specials_then_sorted (files : List (List (List String))) (ms : Option Nat)
    (mf : Nat) (bt et pt ut : String) (v : Vocab)
    (hv : Vocab.init files ms mf bt et pt ut = .ok v) :
    (v.itos.map (fun p => p.2)).take 4 = [pt, bt, et, ut] ∧
    ((v.itos.map (fun p => p.2)).drop 4).Pairwise (tokenOrd v.freqs) := by
  obtain ⟨hfreqs, h2, h3, h4, h5, h6, h7, hitos, h9, h10, h11, h12, h13⟩ :=
    init_ok_inv files ms mf bt et pt ut v hv
  have hmap : v.itos.map (fun p => p.2) =
      build_itos (max mf 1) none [pt, bt, et, ut]
        (words_and_frequencies (make_vocab files).1) := by
    rw [hitos, enumFromN_map_snd]
  rw [hmap, build_itos_none]
  refine ⟨rfl, ?_⟩
  have hdrop : (([pt, bt, et, ut] ++
      ((words_and_frequencies (make_vocab files).1).takeWhile
        (fun p => ! decide (p.2 < max mf 1))).map Prod.fst).drop 4) =
      ((words_and_frequencies (make_vocab files).1).takeWhile
        (fun p => ! decide (p.2 < max mf 1))).map Prod.fst := rfl
  rw [hdrop]
  -- the sorted snapshot is pairwise ordered by pairOrd
  have hnodup : ((make_vocab files).1.map Prod.fst).Nodup := keys_nodup_make_vocab files
  have hperm1 : List.Perm (pySorted byWord (make_vocab files).1) (make_vocab files).1 :=
    pySorted_perm byWord (make_vocab files).1
  have hsorted1 : (pySorted byWord (make_vocab files).1).Pairwise
      (fun a b => byWord a b = true) :=
    pySorted_pairwise byWord byWord_total byWord_trans (make_vocab files).1
  have hnefreqs : ((make_vocab files).1).Pairwise (fun a b => a.1 ≠ b.1) :=
    List.pairwise_map.mp hnodup
  have hne1 : (pySorted byWord (make_vocab files).1).Pairwise (fun a b => a.1 ≠ b.1) :=
    (hperm1.pairwise_iff (fun h => Ne.symm h)).mpr hnefreqs
  have hstrict : (pySorted byWord (make_vocab files).1).Pairwise
      (fun a b => strLtB a.1 b.1 = true) :=
    (hsorted1.and hne1).imp (fun h => strLeB_strict _ _ h.1 h.2)
  have hwf : (words_and_frequencies (make_vocab files).1).Pairwise pairOrd := by
    rw [words_and_frequencies]
    exact pySorted_pairwise_pairOrd _ hstrict
  have htake : ((words_and_frequencies (make_vocab files).1).takeWhile
      (fun p => ! decide (p.2 < max mf 1))).Pairwise pairOrd :=
    hwf.sublist (List.takeWhile_sublist _)
  have hwfperm : List.Perm (words_and_frequencies (make_vocab files).1)
      (make_vocab files).1 := by
    rw [words_and_frequencies]
    exact (pySorted_perm byFreqDesc _).trans hperm1
  rw [List.pairwise_map]
  refine htake.imp_of_mem ?_
  intro p q hp hq hpq
  have hpw : p ∈ (make_vocab files).1 :=
    hwfperm.subset ((List.takeWhile_sublist _).subset hp)
  have hqw : q ∈ (make_vocab files).1 :=
    hwfperm.subset ((List.takeWhile_sublist _).subset hq)
  have hcp : countOf (make_vocab files).1 p.1 = p.2 :=
    countOf_of_mem_nodup p.1 p.2 (make_vocab files).1 hnodup hpw
  have hcq : countOf (make_vocab files).1 q.1 = q.2 :=
    countOf_of_mem_nodup q.1 q.2 (make_vocab files).1 hnodup hqw
  rw [tokenOrd, hfreqs, hcp, hcq]
  exact hpq

/-- Witness for C5 at the two-caption scenario vocabulary. -/
theorem C5_specials_then_sorted_witness :
    ((vA.itos.map (fun p => p.2)).take 4 = ["<pad>", "<bos>", "<eos>", "<unk>"]) ∧
    ((vA.itos.map (fun p => p.2)).drop 4).Pairwise (tokenOrd vA.freqs) :=
  C5_specials_then_sorted capsA none 1 "<bos>" "<eos>" "<pad>" "<unk>" vA rfl

/-- Claim C6: a non-special token whose stored frequency is strictly below
the effective threshold max(min_freq, 1) never appears in the final
token-to-index mapping. -/
theorem C6_min_freq_filtered (files : List (List (List String))) (ms : Option Nat)
    (mf : Nat) (bt et pt ut : String) (v : Vocab) (t : String)
    (hv : Vocab.init files ms mf bt et pt ut = .ok v)
    (hsp : t ∉ ([pt, bt, et, ut] : List String))
    (hlow : countOf v.freqs t < max mf 1) :
    stoiFind v.stoi t = none := by
  obtain ⟨hfreqs, h2, h3, h4, h5, h6, h7, h8, hstoi, h10, h11, h12, h13⟩ :=
    init_ok_inv files ms mf bt et pt ut v hv
  rw [hstoi, stoiFind_mkStoi]
  cases hL : lastIdxOf (build_itos (max mf 1) none [pt, bt, et, ut]
      (words_and_frequencies (make_vocab files).1)) t with
  | none => rfl
  | some i =>
    exfalso
    have hmem : t ∈ build_itos (max mf 1) none [pt, bt, et, ut]
        (words_and_frequencies (make_vocab files).1) :=
      (lastIdxOf_isSome t _).mp (by simp [hL])
    rw [build_itos_none] at hmem
    rcases List.mem_append.mp hmem with h4m | hrest
    · exact hsp h4m
    · obtain ⟨p, hp, hfst⟩ := List.mem_map.mp hrest
      have hpred := List.mem_takeWhile_imp hp
      have hinwf : p ∈ words_and_frequencies (make_vocab files).1 :=
        (List.takeWhile_sublist _).subset hp
      have hwfperm : List.Perm (words_and_frequencies (make_vocab files).1)
          (make_vocab files).1 := by
        rw [words_and_frequencies]
        exact (pySorted_perm byFreqDesc _).trans (pySorted_perm byWord _)
      have hpf : p ∈ (make_vocab files).1 := hwfperm.subset hinwf
      have hcp : countOf (make_vocab files).1 p.1 = p.2 :=
        countOf_of_mem_nodup p.1 p.2 (make_vocab files).1
          (keys_nodup_make_vocab files) hpf
      rw [hfreqs] at hlow
      rw [hfst] at hcp
      simp only [Bool.not_eq_true', decide_eq_false_iff_not] at hpred
      omega

/-- Witness for C6: with min_freq 2 a token of frequency 1 is excluded. -/
theorem C6_min_freq_filtered_witness : stoiFind vB.stoi "solo" = none :=
  C6_min_freq_filtered [[["solo"], ["duo", "duo"]]] none 2 "<bos>" "<eos>" "<pad>" "<unk>"
    vB "solo" rfl (by decide) (by decide)

/-- Claim C3 (counterexample): a token containing a space survives encode
and the decode walk, but the final join-then-split of lines 133 and 137
breaks it apart: the in-vocabulary, non-special token "a b" (with
len(T) + 2 = 3 = max_caption_length) decodes to the two tokens
["a", "b"], not to ["a b"]. -/
theorem C3_space_token_cex :
    Vocab.init [[["a b"]]] none 1 "<bos>" "<eos>" "<pad>" "<unk>" = .ok vSp ∧
    (stoiFind vSp.stoi "a b").isSome = true ∧
    "a b" ∉ vSp.specials ∧
    (["a b"].length + 2 ≤ vSp.max_caption_length) ∧
    (vSp.encode_caption ["a b"]).map (fun enc => vSp.decode_caption [enc] false) =
      some (.ok [Sum.inr ["a", "b"]]) ∧
    ["a", "b"] ≠ ["a b"] := by
  refine ⟨rfl, rfl, ?_, ?_, rfl, ?_⟩ <;> decide

/-- Claim C3 (amended): for a constructed vocabulary with distinct bos and
eos token names, and a caption T of in-vocabulary, non-special tokens that
are nonempty and contain no whitespace, with len(T) + 2 <=
max_caption_length, decoding the encoding of T in token-list form
reproduces T exactly (specials stripped, eos not emitted). -/
theorem C3_roundtrip (files : List (List (List String))) (ms : Option Nat)
    (mf : Nat) (bt et pt ut : String) (v : Vocab)
    (hv : Vocab.init files ms mf bt et pt ut = .ok v)
    (hbe : bt ≠ et)
    (T : List String)
    (hlen : T.length + 2 ≤ v.max_caption_length)
    (hT : ∀ t ∈ T, (stoiFind v.stoi t).isSome = true ∧ t ∉ v.specials ∧
      t ≠ "" ∧ (∀ c ∈ t.data, pyIsSpace c = false)) :
    (v.encode_caption T).map (fun enc => v.decode_caption [enc] false) =
      some (.ok [Sum.inr T]) := by
  obtain ⟨h1, h2, h3, hbt, het, h6, hspec, h8, h9, h10, hbos, heos, h13⟩ :=
    init_ok_inv files ms mf bt et pt ut v hv
  have hP1 := init_P1 files ms mf bt et pt ut v hv
  have hmain := encode_caption_eq v T hlen
  have hb : (match stoiFind v.stoi v.bos_token with
      | some j => j | none => v.unk_idx) = v.bos_idx := by
    rw [hbt, hbos]
  have he : (match stoiFind v.stoi v.eos_token with
      | some j => j | none => v.unk_idx) = v.eos_idx := by
    rw [het, heos]
  rw [List.map_append, List.map_append, List.map_cons, List.map_nil, List.map_cons,
    List.map_nil, hb, he] at hmain
  have henc : v.encode_caption T = some (v.bos_idx ::
      (T.map (fun t => match stoiFind v.stoi t with | some j => j | none => v.unk_idx) ++
        (v.eos_idx ::
          List.replicate (v.max_caption_length - (T.length + 2)) v.padding_idx))) := by
    rw [hmain]
    simp
  rw [henc, Option.map_some']
  -- the decode walk
  have hbfind : itosFind v.itos v.bos_idx = some v.bos_token := by
    refine hP1 v.bos_token v.bos_idx ?_
    rw [hbt]
    exact hbos
  have hefind : stoiFind v.stoi v.eos_token = some v.eos_idx := by
    rw [het]
    exact heos
  have hbsp : v.bos_token ∈ v.specials := by
    rw [hbt, hspec]
    simp
  have hesp : v.eos_token ∈ v.specials := by
    rw [het, hspec]
    simp
  have hbne : ¬ v.bos_idx = v.eos_idx := by
    intro h
    have h1e := hP1 v.eos_token v.eos_idx hefind
    rw [← h, hbfind] at h1e
    have h2e : v.bos_token = v.eos_token := Option.some.inj h1e
    rw [hbt, het] at h2e
    exact hbe h2e
  have hrow : v.decode_row (v.bos_idx ::
      (T.map (fun t => match stoiFind v.stoi t with | some j => j | none => v.unk_idx) ++
        (v.eos_idx ::
          List.replicate (v.max_caption_length - (T.length + 2)) v.padding_idx))) [] =
      .ok T := by
    rw [Vocab.decode_row, hbfind]
    simp only [if_pos hbsp, if_neg hbne]
    have := decode_walk v hP1 hefind hesp T
      (List.replicate (v.max_caption_length - (T.length + 2)) v.padding_idx) []
      (fun t ht => ⟨(hT t ht).1, (hT t ht).2.1⟩)
    simpa using this
  rw [decode_caption_single v _ false T hrow]
  simp [pySplitWs_join T (fun w hw => ⟨(hT w hw).2.2.1, (hT w hw).2.2.2⟩)]

/-- Witness for C3 at the two-caption scenario vocabulary. -/
theorem C3_roundtrip_witness :
    (vA.encode_caption ["a", "dog"]).map (fun enc => vA.decode_caption [enc] false) =
      some (.ok [Sum.inr ["a", "dog"]]) :=
  C3_roundtrip capsA none 1 "<bos>" "<eos>" "<pad>" "<unk>" vA rfl (by decide)
    ["a", "dog"] (by decide) (by decide)

/-- Claim C10: decode walks a row with no eos occurrence to its very end,
emitting exactly the non-special tokens (padding does not stop it), and a
row of padding indices decodes to the empty caption, as the empty string
when join_words is set and as the empty token list otherwise. -/
theorem C10_no_eos_full_walk (files : List (List (List String))) (ms : Option Nat)
    (mf : Nat) (bt et pt ut : String) (v : Vocab)
    (hv : Vocab.init files ms mf bt et pt ut = .ok v) :
    (∀ row : List Nat, (∀ i ∈ row, i ≠ v.eos_idx) →
      (∀ i ∈ row, (itosFind v.itos i).isSome = true) →
      v.decode_row row [] = .ok (row.filterMap
        (fun i => match itosFind v.itos i with
          | some tok => if tok ∈ v.specials then none else some tok
          | none => none))) ∧
    (∀ (n : Nat) (jw : Bool),
      v.decode_caption [List.replicate n v.padding_idx] jw =
        .ok [if jw then Sum.inl "" else Sum.inr []]) := by
  obtain ⟨h1, h2, hpt, h4, h5, h6, hspec, h8, h9, hpad, h11, h12, h13⟩ :=
    init_ok_inv files ms mf bt et pt ut v hv
  have hP1 := init_P1 files ms mf bt et pt ut v hv
  constructor
  · intro row hne hsome
    have := decode_row_no_eos v row [] hne hsome
    simpa using this
  · intro n jw
    have hpfind : itosFind v.itos v.padding_idx = some v.padding_token := by
      refine hP1 v.padding_token v.padding_idx ?_
      rw [hpt]
      exact hpad
    have hpsp : v.padding_token ∈ v.specials := by
      rw [hpt, hspec]
      simp
    have hrow := decode_row_pad v hpfind hpsp n []
    rw [decode_caption_single v _ jw [] hrow]
    cases jw <;> rfl

/-- Witness for C10 at the two-caption scenario vocabulary. -/
theorem C10_no_eos_full_walk_witness :
    vA.decode_row [4, 7] [] = .ok ["a", "dog"] ∧
    vA.decode_caption [List.replicate 5 vA.padding_idx] true = .ok [Sum.inl ""] := by
  have h := C10_no_eos_full_walk capsA none 1 "<bos>" "<eos>" "<pad>" "<unk>" vA rfl
  exact ⟨h.1 [4, 7] (by decide) (by decide), h.2 5 true⟩

/-- Witness for C4 at a concrete vocabulary of capacity 3. -/
theorem C4_encode_raises_iff_witness :
    (vC4.encode_caption ["a"]).isSome = true ↔
      ["a"].length + 2 ≤ vC4.max_caption_length :=
  C4_encode_raises_iff vC4 ["a"]
